import Mathlib

/-!
Verification development for the hybrid Gaussian-mixture conditional core
(GaussianMixtureConditional.h) and the Sphere2 constructors (Sphere2.h).

The header files only declare the mixture operations; their bodies (and the
generic DecisionTree engine from DecisionTree.h) are not part of the shown
sources, so those operations are modelled from the specification, faithful to
its words, and the theorems are settled against that model.
-/

namespace Gtsam

/-- A discrete key: stable identifier plus cardinality (number of values the
discrete variable can take). -/
structure DiscreteKey where
  id : Nat
  card : Nat
deriving DecidableEq

/-- Modelled from the spec: the generic Decision Tree (DecisionTree.h is not in
the shown sources).  A tree is either a leaf holding one value, or an internal
node tagged with a discrete label (identifier and cardinality) holding its
ordered children, one per value of the label. -/
inductive DecisionTree (V : Type) : Type where
  | leaf : V → DecisionTree V
  | node : Nat → Nat → List (DecisionTree V) → DecisionTree V

namespace DecisionTree

variable {V W : Type}

mutual

/-- Modelled from the spec: evaluate a tree at a discrete assignment
(identifier to chosen value).  Selects, at every internal node, the child
indexed by the assignment's value for that node's label; returns none when the
assignment's value is out of range for the node's child list. -/
def eval : DecisionTree V → (Nat → Nat) → Option V
  | .leaf v, _ => some v
  | .node i _ cs, a => evalChild cs (a i) a

/-- Select the k-th child of a child list and evaluate it. -/
def evalChild : List (DecisionTree V) → Nat → (Nat → Nat) → Option V
  | [], _, _ => none
  | t :: _, 0, a => eval t a
  | _ :: ts, k + 1, a => evalChild ts k a

end

mutual

/-- Modelled from the spec: the unary apply of the Decision Tree — map a pure
function over every leaf, preserving the tree shape. -/
def applyUnary (f : V → W) : DecisionTree V → DecisionTree W
  | .leaf v => .leaf (f v)
  | .node i c cs => .node i c (applyUnaryChildren f cs)

/-- Unary apply lifted over a child list. -/
def applyUnaryChildren (f : V → W) : List (DecisionTree V) → List (DecisionTree W)
  | [] => []
  | t :: ts => applyUnary f t :: applyUnaryChildren f ts

end

mutual

/-- Modelled from the spec: the ordered list of labels (identifier and
cardinality pairs) occurring in the tree. -/
def labelsL : DecisionTree V → List (Nat × Nat)
  | .leaf _ => []
  | .node i c cs => (i, c) :: labelsChildren cs

/-- Labels occurring in a child list. -/
def labelsChildren : List (DecisionTree V) → List (Nat × Nat)
  | [] => []
  | t :: ts => labelsL t ++ labelsChildren ts

end

mutual

/-- Number of leaves of a tree. -/
def numLeaves : DecisionTree V → Nat
  | .leaf _ => 1
  | .node _ _ cs => numLeavesChildren cs

/-- Number of leaves of a child list. -/
def numLeavesChildren : List (DecisionTree V) → Nat
  | [] => 0
  | t :: ts => numLeaves t + numLeavesChildren ts

end

/-- Modelled from the spec: the binary apply — combine two trees leaf-by-leaf
into a tree over the union of both label sets, keyed by label identity (the
smaller identifier branches first; trees over disjoint label sets broadcast:
every leaf of one tree is combined against every compatible leaf of the
other). -/
def applyBinary (op : V → V → V) : DecisionTree V → DecisionTree V → DecisionTree V
  | .leaf x, .leaf y => .leaf (op x y)
  | .leaf x, .node j d ds =>
      .node j d (ds.attach.map (fun s => applyBinary op (.leaf x) s.1))
  | .node i c cs, .leaf y =>
      .node i c (cs.attach.map (fun s => applyBinary op s.1 (.leaf y)))
  | .node i c cs, .node j d ds =>
      if i = j then
        .node i c ((cs.zip ds).attach.map (fun p => applyBinary op p.1.1 p.1.2))
      else if i < j then
        .node i c (cs.attach.map (fun s => applyBinary op s.1 (.node j d ds)))
      else
        .node j d (ds.attach.map (fun s => applyBinary op (.node i c cs) s.1))
termination_by t1 t2 => sizeOf t1 + sizeOf t2
decreasing_by
  · have h1 := List.sizeOf_lt_of_mem s.2
    simp
    omega
  · have h1 := List.sizeOf_lt_of_mem s.2
    simp
    omega
  · obtain ⟨⟨x, y⟩, hxy⟩ := p
    have h3 := List.sizeOf_lt_of_mem (List.of_mem_zip hxy).1
    have h4 := List.sizeOf_lt_of_mem (List.of_mem_zip hxy).2
    simp
    omega
  · have h1 := List.sizeOf_lt_of_mem s.2
    simp
    omega
  · have h1 := List.sizeOf_lt_of_mem s.2
    simp
    omega

/-- Combine two optional leaf lookups: defined exactly when both are. -/
def combineOpt {α β γ : Type} (op : α → β → γ) : Option α → Option β → Option γ
  | some x, some y => some (op x y)
  | _, _ => none

/-- An assignment is valid for a label list when it assigns every listed label
a value below that label's cardinality. -/
def ValidFor (L : List (Nat × Nat)) (a : Nat → Nat) : Prop :=
  ∀ p ∈ L, a p.1 < p.2

instance (L : List (Nat × Nat)) (a : Nat → Nat) : Decidable (ValidFor L a) := by
  unfold ValidFor
  infer_instance

/-- A label list assigns consistent cardinalities: any two entries with the
same identifier carry the same cardinality. -/
def ConsistentCards (L : List (Nat × Nat)) : Prop :=
  ∀ p ∈ L, ∀ q ∈ L, p.1 = q.1 → p.2 = q.2

instance (L : List (Nat × Nat)) : Decidable (ConsistentCards L) := by
  unfold ConsistentCards
  infer_instance

/-- Modelled from the spec: one representative assignment for every
combination of values of the given labels. -/
def assignmentsOver : List (Nat × Nat) → List (Nat → Nat)
  | [] => [fun _ => 0]
  | p :: rest =>
      ((assignmentsOver rest).map
        (fun a => (List.range p.2).map (fun v => Function.update a p.1 v))).flatten

/-- Lift a per-value equality predicate to optional leaf lookups: two missing
lookups compare equal, a missing and a present lookup compare unequal. -/
def optEq (eq : V → V → Bool) : Option V → Option V → Bool
  | none, none => true
  | some x, some y => eq x y
  | _, _ => false

/-- Modelled from the spec: decision-tree equality — two trees are equal iff
they induce the same assignment-to-value function under the provided per-value
equality predicate, independent of internal branching shape.  Implemented by
comparing the two evaluation functions on an enumeration of all assignments
over the union of the two trees' labels. -/
def semEqB (eq : V → V → Bool) (t1 t2 : DecisionTree V) : Bool :=
  (assignmentsOver (labelsL t1 ++ labelsL t2)).all
    (fun a => optEq eq (t1.eval a) (t2.eval a))

/-- The branching skeleton of a tree, with the leaf values erased. -/
def shape (t : DecisionTree V) : DecisionTree Unit :=
  applyUnary (fun _ => ()) t

end DecisionTree

/-- Modelled from the spec: the external Linear-Gaussian Conditional
collaborator, abstracted to the interface the core consumes — frontal keys,
parent keys, and a payload index standing for its numerical parameters.  It is
consumed, never reimplemented. -/
structure GaussianConditional where
  frontals : List Nat
  parents : List Nat
  model : Nat
deriving DecidableEq

/-- Modelled from the spec: a Gaussian Factor Graph as the core consumes it —
a factor collection supporting the empty graph, the single-factor graph and
append; its factors are conditionals used as plain factors. -/
abbrev GaussianFactorGraph := List GaussianConditional

/-- Error taxonomy of the construction operations. -/
inductive GtsamError where
  | shapeMismatch
deriving DecidableEq

/-- Product of the cardinalities of a list of discrete keys. -/
def prodCards : List DiscreteKey → Nat
  | [] => 1
  | k :: ks => k.card * prodCards ks

/-- Modelled from the spec: build the canonical tree branching on the labels
in the supplied order; child i of a node covers the i-th consecutive block of
the value list. -/
def DecisionTree.build {V : Type} (d0 : V) :
    List DiscreteKey → List V → DecisionTree V
  | [], vs => .leaf (vs.getD 0 d0)
  | k :: ks, vs =>
      .node k.id k.card ((List.range k.card).map (fun i =>
        DecisionTree.build d0 ks ((vs.drop (i * prodCards ks)).take (prodCards ks))))

/-- Modelled from the spec: construct a tree from an ordered label list and a
value list; fails with ShapeMismatch exactly when the value count does not
match the cardinality product. -/
def DecisionTree.fromLeaves {V : Type} (d0 : V) (labels : List DiscreteKey)
    (values : List V) : Except GtsamError (DecisionTree V) :=
  if values.length = prodCards labels then .ok (DecisionTree.build d0 labels values)
  else .error .shapeMismatch

/-- The Gaussian Mixture Conditional: continuous frontal keys, continuous
parent keys, discrete parent keys, and the decision tree of optional (possibly
absent) Gaussian conditionals.  The field-storing constructor is the
structure's anonymous constructor; per the spec it performs no validation. -/
structure GaussianMixtureConditional where
  continuousFrontals : List Nat
  continuousParents : List Nat
  discreteParents : List DiscreteKey
  conditionals : DecisionTree (Option GaussianConditional)

/-- Alias for the decision tree of Gaussian factor graphs (the header's Sum). -/
abbrev GaussianMixtureConditional.Sum := DecisionTree GaussianFactorGraph

/-- Alias for the decision tree of optional Gaussian conditionals (the
header's Conditionals; an absent entry models a null shared pointer). -/
abbrev GaussianMixtureConditional.Conditionals := DecisionTree (Option GaussianConditional)

/-- Modelled from the spec: the default constructor (mainly for serialization)
default-constructs every member — empty key sequences and a default
conditionals tree, modelled as the tree with a single absent leaf
(DecisionTree.h's default constructor is not among the shown sources). -/
instance : Inhabited GaussianMixtureConditional :=
  ⟨⟨[], [], [], .leaf none⟩⟩

/-- Modelled from the spec: wrap an optional conditional as a Gaussian Factor
Graph — a present conditional becomes the single-factor graph holding exactly
that conditional as a factor, an absent one the empty graph. -/
def wrapConditional : Option GaussianConditional → GaussianFactorGraph
  | some c => [c]
  | none => []

/-- Modelled from the spec: conversion of the mixture into a decision tree of
Gaussian Factor Graphs, the leaf-wise unary apply of wrapConditional (the
method body is not part of the shown header). -/
def GaussianMixtureConditional.asGaussianFactorGraphTree
    (g : GaussianMixtureConditional) : GaussianMixtureConditional.Sum :=
  DecisionTree.applyUnary wrapConditional g.conditionals

/-- Modelled from the spec: merge — the binary combine of this mixture's
factor graph tree with the given sum, where the per-leaf operation
concatenates the two factor collections (pure accumulation, no elimination). -/
def GaussianMixtureConditional.add (g : GaussianMixtureConditional)
    (sum : GaussianMixtureConditional.Sum) : GaussianMixtureConditional.Sum :=
  DecisionTree.applyBinary (fun x y => x ++ y) g.asGaussianFactorGraphTree sum

/-- Modelled from the spec: build a mixture from an ordered list of (possibly
null) conditionals, one per assignment of the discrete parents; fails with
ShapeMismatch when the list length does not match the cardinality product. -/
def GaussianMixtureConditional.FromConditionals
    (continuousFrontals continuousParents : List Nat)
    (discreteParents : List DiscreteKey)
    (conditionals : List (Option GaussianConditional)) :
    Except GtsamError GaussianMixtureConditional :=
  match DecisionTree.fromLeaves none discreteParents conditionals with
  | .ok t => .ok ⟨continuousFrontals, continuousParents, discreteParents, t⟩
  | .error e => .error e

/-- Modelled from the spec: the closed family of hybrid factor kinds — the
mixture conditional plus one representative variant for the remaining kinds,
carrying only its key sets. -/
inductive HybridFactor where
  | gmc : GaussianMixtureConditional → HybridFactor
  | otherKind : List Nat → List DiscreteKey → HybridFactor

/-- Modelled from the spec: equality of the mixture against another hybrid
factor — true iff the other factor is also a Gaussian Mixture Conditional
with the same frontal, parent and discrete key sequences, and a conditionals
tree equal to this one's under per-leaf conditional equality.  The per-leaf
comparison delegates present leaves to the injected external comparator eqc
(the Linear-Gaussian Conditional comparator at the caller's tolerance) and
treats two absent leaves as equal, one absent and one present as unequal. -/
def GaussianMixtureConditional.equals
    (eqc : GaussianConditional → GaussianConditional → Bool)
    (g : GaussianMixtureConditional) : HybridFactor → Bool
  | .gmc g2 =>
      decide (g.continuousFrontals = g2.continuousFrontals) &&
      decide (g.continuousParents = g2.continuousParents) &&
      decide (g.discreteParents = g2.discreteParents) &&
      DecisionTree.semEqB (DecisionTree.optEq eqc) g.conditionals g2.conditionals
  | .otherKind _ _ => false

/-- The key-set and tree-function agreement the spec requires of two equal
mixtures: equal frontal, parent and discrete key sequences, and the same
assignment-to-leaf function on every assignment valid for the union of the
two conditionals trees' labels, under per-leaf conditional comparison. -/
def gmcEqualsSpec (eqc : GaussianConditional → GaussianConditional → Bool)
    (g g2 : GaussianMixtureConditional) : Prop :=
  g.continuousFrontals = g2.continuousFrontals ∧
  g.continuousParents = g2.continuousParents ∧
  g.discreteParents = g2.discreteParents ∧
  ∀ a, DecisionTree.ValidFor
      (DecisionTree.labelsL g.conditionals ++ DecisionTree.labelsL g2.conditionals) a →
    DecisionTree.optEq (DecisionTree.optEq eqc)
      (g.conditionals.eval a) (g2.conditionals.eval a) = true

/-- Modelled from the spec and the header's const method declarations: the
equals method call paired with the receiver's state after the call. -/
def GaussianMixtureConditional.equalsCall
    (eqc : GaussianConditional → GaussianConditional → Bool)
    (g : GaussianMixtureConditional) (f : HybridFactor) :
    Bool × GaussianMixtureConditional :=
  (g.equals eqc f, g)

/-- Modelled from the spec (read-only access to the underlying tree): the
conditionals getter call paired with the receiver's state after the call. -/
def GaussianMixtureConditional.conditionalsCall
    (g : GaussianMixtureConditional) :
    GaussianMixtureConditional.Conditionals × GaussianMixtureConditional :=
  (g.conditionals, g)

/-- Modelled from the spec and the header's const declaration: the conversion
call paired with the receiver's state after the call. -/
def GaussianMixtureConditional.asTreeCall
    (g : GaussianMixtureConditional) :
    GaussianMixtureConditional.Sum × GaussianMixtureConditional :=
  (g.asGaussianFactorGraphTree, g)

/-- Modelled from the spec and the header's const declaration: the add call
paired with the receiver's state after the call. -/
def GaussianMixtureConditional.addCall
    (g : GaussianMixtureConditional) (sum : GaussianMixtureConditional.Sum) :
    GaussianMixtureConditional.Sum × GaussianMixtureConditional :=
  (g.add sum, g)

/-- The member functions of the GaussianMixtureConditional class declaration. -/
inductive GMCMember where
  | defaultCtor
  | treeCtor
  | fromCond
  | equalsMem
  | printMem
  | conditionalsMem
  | asGaussianFactorGraphTreeMem
  | addMem
deriving DecidableEq, Fintype

/-- The members the header declares public (its public sections): the default
constructor, the tree constructor, FromConditionals, equals, print,
conditionals() and add.  asGaussianFactorGraphTree is declared in the private
section of the header, together with the conditionals_ field. -/
def publicMembers : List GMCMember :=
  [.defaultCtor, .treeCtor, .fromCond, .equalsMem, .printMem, .conditionalsMem, .addMem]

/-- The operations claim C8 lists as the interface exposed to an elimination
orchestrator. -/
def claimedExposed : List GMCMember :=
  [.treeCtor, .fromCond, .equalsMem, .conditionalsMem,
   .asGaussianFactorGraphTreeMem, .addMem]

/-- Example conditional over frontal key 1 with no parents. -/
def exCondA : GaussianConditional := ⟨[1], [], 0⟩

/-- A second example conditional over frontal key 1 with no parents. -/
def exCondB : GaussianConditional := ⟨[1], [], 1⟩

/-- Example discrete key M with cardinality 2. -/
def exM : DiscreteKey := ⟨0, 2⟩

/-- Concrete per-conditional comparator standing for the external
tolerance-based comparator at a fixed tolerance. -/
def exEq : GaussianConditional → GaussianConditional → Bool :=
  fun c1 c2 => decide (c1 = c2)

/-- The example mixture over discrete parent M built from exCondA and
exCondB. -/
def exGMC : GaussianMixtureConditional :=
  ⟨[1], [], [exM], .node 0 2 [.leaf (some exCondA), .leaf (some exCondB)]⟩

/-- A mixture whose discrete parents declare cardinality product 2 while its
tree has a single leaf: the leaves-equal-product invariant does not hold. -/
def exBad : GaussianMixtureConditional :=
  ⟨[], [], [exM], .leaf none⟩

/-- The 3D point collaborator of Sphere2 (Point3 is external to the shown
sources), with real coordinates standing for the doubles of the source. -/
structure Point3 where
  x : ℝ
  y : ℝ
  z : ℝ

/-- The Euclidean norm of a point, as Point3::norm supplies it. -/
noncomputable def Point3.norm (q : Point3) : ℝ :=
  Real.sqrt (q.x * q.x + q.y * q.y + q.z * q.z)

/-- Componentwise division of a point by a scalar (the source's p / s). -/
noncomputable def Point3.divScalar (q : Point3) (s : ℝ) : Point3 :=
  ⟨q.x / s, q.y / s, q.z / s⟩

/-- A point on the unit sphere: the stored location member p_. -/
structure Sphere2 where
  p_ : Point3

/-- Sphere2(const Point3 and p) : p_(p / p.norm()) — stores the input divided
by its norm, with no guard on the divisor. -/
noncomputable def Sphere2.fromPoint (q : Point3) : Sphere2 :=
  ⟨q.divScalar q.norm⟩

/-- Sphere2(double x, double y, double z) : p_(x, y, z) then
p_ = p_ / p_.norm() — builds the point and divides it by its own norm, with
no guard on the divisor. -/
noncomputable def Sphere2.fromCoords (x y z : ℝ) : Sphere2 :=
  ⟨(Point3.mk x y z).divScalar (Point3.mk x y z).norm⟩

namespace DecisionTree

theorem evalChild_eq (cs : List (DecisionTree V)) (k : Nat) (a : Nat → Nat) :
    evalChild cs k a = (cs[k]?).bind (fun t => eval t a) := by
  induction cs generalizing k with
  | nil => simp [evalChild]
  | cons t ts ih =>
    cases k with
    | zero => simp [evalChild]
    | succ k => simp [evalChild, ih]

/-- Induction principle for decision trees that hands the node case the
induction hypothesis for every child in the list. -/
theorem myInd {P : DecisionTree V → Prop}
    (hleaf : ∀ v, P (DecisionTree.leaf v))
    (hnode : ∀ i c cs, (∀ t, t ∈ cs → P t) → P (DecisionTree.node i c cs)) :
    ∀ t, P t := by
  intro t
  generalize hn : sizeOf t = n
  induction n using Nat.strong_induction_on generalizing t with
  | _ n ih =>
    cases t with
    | leaf v => exact hleaf v
    | node i c cs =>
      apply hnode
      intro s hs
      apply ih (sizeOf s) _ s rfl
      subst hn
      have h1 := List.sizeOf_lt_of_mem hs
      simp only [DecisionTree.node.sizeOf_spec]
      omega

theorem applyUnaryChildren_eq_map (f : V → W) (cs : List (DecisionTree V)) :
    applyUnaryChildren f cs = cs.map (applyUnary f) := by
  induction cs with
  | nil => simp [applyUnaryChildren]
  | cons t ts ih => simp [applyUnaryChildren, ih]

theorem mem_labelsChildren_of_mem {t : DecisionTree V} {cs : List (DecisionTree V)}
    (ht : t ∈ cs) {p : Nat × Nat} (hp : p ∈ labelsL t) : p ∈ labelsChildren cs := by
  induction cs with
  | nil => cases ht
  | cons s ss ih =>
    rcases List.mem_cons.mp ht with h | h
    · subst h
      exact List.mem_append.mpr (Or.inl hp)
    · exact List.mem_append.mpr (Or.inr (ih h))

theorem applyBinary_leaf_leaf (op : V → V → V) (x y : V) :
    applyBinary op (.leaf x) (.leaf y) = .leaf (op x y) := by
  simp [applyBinary]

theorem applyBinary_leaf_node (op : V → V → V) (x : V) (j d : Nat)
    (ds : List (DecisionTree V)) :
    applyBinary op (.leaf x) (.node j d ds)
      = .node j d (ds.map (fun s => applyBinary op (.leaf x) s)) := by
  rw [applyBinary]
  simp

theorem applyBinary_node_leaf (op : V → V → V) (y : V) (i c : Nat)
    (cs : List (DecisionTree V)) :
    applyBinary op (.node i c cs) (.leaf y)
      = .node i c (cs.map (fun s => applyBinary op s (.leaf y))) := by
  rw [applyBinary]
  simp

theorem applyBinary_node_node_same (op : V → V → V) (i c d : Nat)
    (cs ds : List (DecisionTree V)) :
    applyBinary op (.node i c cs) (.node i d ds)
      = .node i c ((cs.zip ds).map (fun p => applyBinary op p.1 p.2)) := by
  rw [applyBinary]
  simp only [if_pos rfl]
  rw [List.attach_map_val (cs.zip ds) (fun p => applyBinary op p.1 p.2)]
  simp

theorem applyBinary_node_node_lt (op : V → V → V) (i c j d : Nat)
    (cs ds : List (DecisionTree V)) (h : i < j) :
    applyBinary op (.node i c cs) (.node j d ds)
      = .node i c (cs.map (fun s => applyBinary op s (.node j d ds))) := by
  rw [applyBinary]
  simp [Nat.ne_of_lt h, h]

theorem applyBinary_node_node_gt (op : V → V → V) (i c j d : Nat)
    (cs ds : List (DecisionTree V)) (h : j < i) :
    applyBinary op (.node i c cs) (.node j d ds)
      = .node j d (ds.map (fun s => applyBinary op (.node i c cs) s)) := by
  rw [applyBinary]
  simp [Nat.ne_of_gt h, Nat.not_lt_of_gt h]

@[simp]
theorem combineOpt_some_some {α β γ : Type} (op : α → β → γ) (x : α) (y : β) :
    combineOpt op (some x) (some y) = some (op x y) := rfl

@[simp]
theorem combineOpt_none_left {α β γ : Type} (op : α → β → γ) (o : Option β) :
    combineOpt op none o = none := by
  cases o <;> rfl

@[simp]
theorem combineOpt_none_right {α β γ : Type} (op : α → β → γ) (o : Option α) :
    combineOpt op o none = none := by
  cases o <;> rfl

theorem zip_getElem? {α β : Type} (l1 : List α) (l2 : List β) (k : Nat) :
    (l1.zip l2)[k]? = combineOpt Prod.mk l1[k]? l2[k]? := by
  induction l1 generalizing l2 k with
  | nil => simp
  | cons x l1 ih =>
    cases l2 with
    | nil => simp
    | cons y l2 =>
      cases k with
      | zero => simp [List.zip]
      | succ k => simpa [List.zip] using ih l2 k

/-- Leaf-wise semantics of the unary apply: at every assignment the mapped
tree's leaf is the image of the original tree's leaf. -/
theorem eval_applyUnary (f : V → W) (t : DecisionTree V) (a : Nat → Nat) :
    (applyUnary f t).eval a = (t.eval a).map f := by
  induction t using myInd with
  | hleaf v => simp [applyUnary, eval]
  | hnode i c cs ih =>
    simp only [applyUnary, applyUnaryChildren_eq_map, eval, evalChild_eq, List.getElem?_map]
    cases h : cs[a i]? with
    | none => simp
    | some t => simpa using ih t (List.getElem?_mem h)

/-- Composing two unary applies composes the leaf functions. -/
theorem applyUnary_applyUnary {X : Type} (f : W → X) (g : V → W) (t : DecisionTree V) :
    applyUnary f (applyUnary g t) = applyUnary (fun v => f (g v)) t := by
  induction t using myInd with
  | hleaf v => simp [applyUnary]
  | hnode i c cs ih =>
    simp only [applyUnary, applyUnaryChildren_eq_map, List.map_map]
    congr 1
    exact List.map_congr_left (fun s hs => ih s hs)

/-- Leaf-wise semantics of the binary apply: at every assignment, the combined
tree's leaf is the per-leaf combination of the two input trees' leaves, each
input tree consulting only its own labels of the assignment. -/
theorem eval_applyBinary (op : V → V → V) (t1 t2 : DecisionTree V) (a : Nat → Nat) :
    (applyBinary op t1 t2).eval a = combineOpt op (t1.eval a) (t2.eval a) := by
  suffices H : ∀ (n : Nat) (t1 t2 : DecisionTree V) (a : Nat → Nat),
      sizeOf t1 + sizeOf t2 < n →
      (applyBinary op t1 t2).eval a = combineOpt op (t1.eval a) (t2.eval a) by
    exact H (sizeOf t1 + sizeOf t2 + 1) t1 t2 a (Nat.lt_succ_self _)
  intro n
  induction n using Nat.strong_induction_on with
  | _ n ih =>
    intro t1 t2 a hlt
    cases t1 with
    | leaf x =>
      cases t2 with
      | leaf y => simp [applyBinary_leaf_leaf, eval]
      | node j d ds =>
        rw [applyBinary_leaf_node]
        simp only [eval, evalChild_eq, List.getElem?_map]
        cases h : ds[a j]? with
        | none => simp
        | some s =>
          have hmem := List.sizeOf_lt_of_mem (List.getElem?_mem h)
          have := ih _ hlt (DecisionTree.leaf x) s a (by simp_all; omega)
          simpa [eval] using this
    | node i c cs =>
      cases t2 with
      | leaf y =>
        rw [applyBinary_node_leaf]
        simp only [eval, evalChild_eq, List.getElem?_map]
        cases h : cs[a i]? with
        | none => simp
        | some s =>
          have hmem := List.sizeOf_lt_of_mem (List.getElem?_mem h)
          have := ih _ hlt s (DecisionTree.leaf y) a (by simp_all; omega)
          simpa [eval] using this
      | node j d ds =>
        by_cases hij : i = j
        · subst hij
          rw [applyBinary_node_node_same]
          simp only [eval, evalChild_eq, List.getElem?_map, zip_getElem?]
          cases h1 : cs[a i]? with
          | none => simp
          | some s1 =>
            cases h2 : ds[a i]? with
            | none => simp
            | some s2 =>
              have hm1 := List.sizeOf_lt_of_mem (List.getElem?_mem h1)
              have hm2 := List.sizeOf_lt_of_mem (List.getElem?_mem h2)
              have := ih _ hlt s1 s2 a (by simp_all; omega)
              simpa using this
        · by_cases hij2 : i < j
          · rw [applyBinary_node_node_lt op i c j d cs ds hij2]
            simp only [eval, evalChild_eq, List.getElem?_map]
            cases h : cs[a i]? with
            | none => simp
            | some s =>
              have hmem := List.sizeOf_lt_of_mem (List.getElem?_mem h)
              have := ih _ hlt s (DecisionTree.node j d ds) a (by simp_all; omega)
              simpa [eval, evalChild_eq] using this
          · have hji : j < i := by omega
            rw [applyBinary_node_node_gt op i c j d cs ds hji]
            simp only [eval, evalChild_eq, List.getElem?_map]
            cases h : ds[a j]? with
            | none => simp
            | some s =>
              have hmem := List.sizeOf_lt_of_mem (List.getElem?_mem h)
              have := ih _ hlt (DecisionTree.node i c cs) s a (by simp_all; omega)
              simpa [eval, evalChild_eq] using this

/-- Evaluation only consults the assignment at the tree's own labels: the
mechanism by which a binary combine restricts an assignment to each input
tree's label set. -/
theorem eval_congr (t : DecisionTree V) (a a' : Nat → Nat)
    (h : ∀ p ∈ labelsL t, a p.1 = a' p.1) : t.eval a = t.eval a' := by
  induction t using myInd with
  | hleaf v => simp [eval]
  | hnode i c cs ih =>
    have hi : a i = a' i := h (i, c) (by simp [labelsL])
    simp only [eval, evalChild_eq, ← hi]
    cases hc : cs[a i]? with
    | none => rfl
    | some s =>
      simp only [Option.bind]
      exact ih s (List.getElem?_mem hc) (fun p hp =>
        h p (by
          simp only [labelsL, List.mem_cons]
          exact Or.inr (mem_labelsChildren_of_mem (List.getElem?_mem hc) hp)))

theorem mem_assignmentsOver_cons {p : Nat × Nat} {rest : List (Nat × Nat)}
    {a : Nat → Nat} :
    a ∈ assignmentsOver (p :: rest) ↔
      ∃ a0 ∈ assignmentsOver rest, ∃ v < p.2, a = Function.update a0 p.1 v := by
  simp only [assignmentsOver, List.mem_flatten, List.mem_map, List.mem_range]
  constructor
  · rintro ⟨l, ⟨a0, ha0, rfl⟩, hal⟩
    rcases List.mem_map.mp hal with ⟨v, hv, hva⟩
    exact ⟨a0, ha0, v, List.mem_range.mp hv, hva.symm⟩
  · rintro ⟨a0, ha0, v, hv, rfl⟩
    exact ⟨(List.range p.2).map (fun v => Function.update a0 p.1 v), ⟨a0, ha0, rfl⟩,
      List.mem_map.mpr ⟨v, List.mem_range.mpr hv, rfl⟩⟩

/-- Every assignment valid for a label list has a representative in the
enumeration that agrees with it on every listed identifier. -/
theorem exists_representative (L : List (Nat × Nat)) (a : Nat → Nat)
    (ha : ValidFor L a) :
    ∃ a' ∈ assignmentsOver L, ∀ p ∈ L, a' p.1 = a p.1 := by
  induction L with
  | nil => exact ⟨fun _ => 0, by simp [assignmentsOver], by simp⟩
  | cons p rest ih =>
    have harest : ValidFor rest a := fun q hq => ha q (List.mem_cons.mpr (Or.inr hq))
    obtain ⟨a0, hmem, hagree⟩ := ih harest
    refine ⟨Function.update a0 p.1 (a p.1), ?_, ?_⟩
    · exact mem_assignmentsOver_cons.mpr
        ⟨a0, hmem, a p.1, ha p (List.mem_cons_self p rest), rfl⟩
    · intro q hq
      rcases List.mem_cons.mp hq with h | h
      · subst h
        simp [Function.update_same]
      · by_cases hqp : q.1 = p.1
        · rw [hqp]
          simp [Function.update_same]
        · rw [Function.update_noteq hqp]
          exact hagree q h

/-- Under consistent cardinalities, every enumerated assignment is valid for
the label list. -/
theorem validFor_of_mem_assignmentsOver (L : List (Nat × Nat))
    (hL : ConsistentCards L) :
    ∀ a ∈ assignmentsOver L, ValidFor L a := by
  induction L with
  | nil => intro a _ q hq; cases hq
  | cons p rest ih =>
    have hLrest : ConsistentCards rest := fun x hx y hy =>
      hL x (List.mem_cons.mpr (Or.inr hx)) y (List.mem_cons.mpr (Or.inr hy))
    intro a hmem
    obtain ⟨a0, ha0, v, hv, rfl⟩ := mem_assignmentsOver_cons.mp hmem
    intro q hq
    rcases List.mem_cons.mp hq with h | h
    · subst h
      simpa [Function.update_same] using hv
    · by_cases hqp : q.1 = p.1
      · have : q.2 = p.2 :=
          hL q (List.mem_cons.mpr (Or.inr h)) p (List.mem_cons_self p rest) hqp
        rw [hqp]
        simpa [Function.update_same, this] using hv
      · rw [Function.update_noteq hqp]
        exact ih hLrest a0 ha0 q h

/-- The executable tree equality decides exactly the same
assignment-to-value-function property the specification describes. -/
theorem semEqB_iff (eq : V → V → Bool) (t1 t2 : DecisionTree V)
    (hcc : ConsistentCards (labelsL t1 ++ labelsL t2)) :
    semEqB eq t1 t2 = true ↔
      ∀ a, ValidFor (labelsL t1 ++ labelsL t2) a →
        optEq eq (t1.eval a) (t2.eval a) = true := by
  constructor
  · intro h a ha
    obtain ⟨a', hmem, hagree⟩ := exists_representative _ a ha
    have e1 : t1.eval a' = t1.eval a :=
      eval_congr t1 a' a (fun p hp => hagree p (List.mem_append_left _ hp))
    have e2 : t2.eval a' = t2.eval a :=
      eval_congr t2 a' a (fun p hp => hagree p (List.mem_append_right _ hp))
    have := List.all_eq_true.mp h a' hmem
    rwa [e1, e2] at this
  · intro h
    exact List.all_eq_true.mpr (fun a' hmem =>
      h a' (validFor_of_mem_assignmentsOver _ hcc a' hmem))

end DecisionTree

/-- Dividing a point by its nonzero norm yields a point of norm one. -/
theorem Point3.norm_divScalar_norm (q : Point3) (h : q.norm ≠ 0) :
    (q.divScalar q.norm).norm = 1 := by
  have hS : (0 : ℝ) ≤ q.x * q.x + q.y * q.y + q.z * q.z := by
    have hx := mul_self_nonneg q.x
    have hy := mul_self_nonneg q.y
    have hz := mul_self_nonneg q.z
    linarith
  have hs2 : Real.sqrt (q.x * q.x + q.y * q.y + q.z * q.z) *
      Real.sqrt (q.x * q.x + q.y * q.y + q.z * q.z)
      = q.x * q.x + q.y * q.y + q.z * q.z := Real.mul_self_sqrt hS
  have hS0 : q.x * q.x + q.y * q.y + q.z * q.z ≠ 0 := by
    intro h0
    apply h
    unfold Point3.norm
    rw [h0, Real.sqrt_zero]
  unfold Point3.norm Point3.divScalar at *
  have hsum : q.x / Real.sqrt (q.x * q.x + q.y * q.y + q.z * q.z) *
        (q.x / Real.sqrt (q.x * q.x + q.y * q.y + q.z * q.z)) +
      q.y / Real.sqrt (q.x * q.x + q.y * q.y + q.z * q.z) *
        (q.y / Real.sqrt (q.x * q.x + q.y * q.y + q.z * q.z)) +
      q.z / Real.sqrt (q.x * q.x + q.y * q.y + q.z * q.z) *
        (q.z / Real.sqrt (q.x * q.x + q.y * q.y + q.z * q.z))
      = (q.x * q.x + q.y * q.y + q.z * q.z) /
          (Real.sqrt (q.x * q.x + q.y * q.y + q.z * q.z) *
            Real.sqrt (q.x * q.x + q.y * q.y + q.z * q.z)) := by
    ring
  simp only [hsum, hs2, div_self hS0, Real.sqrt_one]

/-- C1: add(sum) is the label-keyed binary combine of
this.asGaussianFactorGraphTree() with sum — at every discrete assignment the
resulting leaf's factor collection is the concatenation of the two input
leaves' factor collections, each input tree reading only its own labels of
the assignment (evaluation never consults a label the tree does not
contain), with no elimination performed. -/
theorem C1_add_leafwise_concat (g : GaussianMixtureConditional)
    (sum : GaussianMixtureConditional.Sum) (a : Nat → Nat) :
    (g.add sum).eval a
      = DecisionTree.combineOpt (fun x y => x ++ y)
          (g.asGaussianFactorGraphTree.eval a) (sum.eval a) :=
  DecisionTree.eval_applyBinary _ _ _ _

/-- C2: asGaussianFactorGraphTree maps, leaf-wise and shape-preservingly,
every present conditional to the single-factor graph wrapping exactly that
conditional and every absent leaf to the empty graph; concretely, for
discreteParents [(M, cardinality 2)] built from [condA, condB] the result is
the 2-leaf tree whose leaf at M=0 wraps condA and whose leaf at M=1 wraps
condB. -/
theorem C2_asGaussianFactorGraphTree_wraps :
    (∀ (g : GaussianMixtureConditional) (a : Nat → Nat),
        g.asGaussianFactorGraphTree.eval a
          = (g.conditionals.eval a).map wrapConditional) ∧
    (∀ (g : GaussianMixtureConditional) (a : Nat → Nat) (c : GaussianConditional),
        g.conditionals.eval a = some (some c) →
        g.asGaussianFactorGraphTree.eval a = some [c]) ∧
    (∀ (g : GaussianMixtureConditional) (a : Nat → Nat),
        g.conditionals.eval a = some none →
        g.asGaussianFactorGraphTree.eval a = some []) ∧
    (∀ g : GaussianMixtureConditional,
        DecisionTree.shape g.asGaussianFactorGraphTree
          = DecisionTree.shape g.conditionals) ∧
    GaussianMixtureConditional.FromConditionals [1] [] [exM]
        [some exCondA, some exCondB] = .ok exGMC ∧
    exGMC.asGaussianFactorGraphTree = .node 0 2 [.leaf [exCondA], .leaf [exCondB]] ∧
    exGMC.asGaussianFactorGraphTree.eval (fun _ => 0) = some [exCondA] ∧
    exGMC.asGaussianFactorGraphTree.eval (fun _ => 1) = some [exCondB] := by
  refine ⟨?_, ?_, ?_, ?_, rfl, rfl, rfl, rfl⟩
  · intro g a
    exact DecisionTree.eval_applyUnary _ _ _
  · intro g a c h
    rw [GaussianMixtureConditional.asGaussianFactorGraphTree,
      DecisionTree.eval_applyUnary, h]
    rfl
  · intro g a h
    rw [GaussianMixtureConditional.asGaussianFactorGraphTree,
      DecisionTree.eval_applyUnary, h]
    rfl
  · intro g
    unfold DecisionTree.shape GaussianMixtureConditional.asGaussianFactorGraphTree
    exact DecisionTree.applyUnary_applyUnary _ _ _

/-- Witness for C2: a present leaf of the example mixture, wrapped. -/
theorem C2_witness :
    exGMC.conditionals.eval (fun _ => 0) = some (some exCondA) ∧
    exGMC.asGaussianFactorGraphTree.eval (fun _ => 0) = some [exCondA] :=
  ⟨rfl, C2_asGaussianFactorGraphTree_wraps.2.1 exGMC (fun _ => 0) exCondA rfl⟩

/-- C4: FromConditionals fails with ShapeMismatch exactly when the sequence
length differs from the product of the discrete parents' cardinalities; in
particular a single discrete parent of cardinality 2 with a 3-element
conditional sequence fails with ShapeMismatch. -/
theorem C4_fromConditionals_shape :
    (∀ (cf cp : List Nat) (dp : List DiscreteKey)
        (conds : List (Option GaussianConditional)),
        GaussianMixtureConditional.FromConditionals cf cp dp conds
            = .error .shapeMismatch
          ↔ conds.length ≠ prodCards dp) ∧
    GaussianMixtureConditional.FromConditionals [1] [] [exM]
        [some exCondA, some exCondB, some exCondA]
      = .error .shapeMismatch := by
  constructor
  · intro cf cp dp conds
    unfold GaussianMixtureConditional.FromConditionals DecisionTree.fromLeaves
    by_cases h : conds.length = prodCards dp
    · simp [h]
    · simp [h]
  · rfl

/-- C5: add is order-independent up to per-leaf factor multisets — folding
the contributions of two mixtures into a sum in either order yields the same
assignment-to-factor-multiset function — and add applied with the all-empty
sum returns the mixture's factor-graph tree unchanged as an
assignment-to-leaf function. -/
theorem C5_add_order_independent :
    (∀ (g1 g2 : GaussianMixtureConditional)
        (s3 : GaussianMixtureConditional.Sum) (a : Nat → Nat),
        ((g1.add (g2.add s3)).eval a).map
            (fun l => (l : Multiset GaussianConditional))
          = ((g2.add (g1.add s3)).eval a).map
              (fun l => (l : Multiset GaussianConditional))) ∧
    (∀ (g : GaussianMixtureConditional) (a : Nat → Nat),
        (g.add (.leaf [])).eval a = g.asGaussianFactorGraphTree.eval a) := by
  constructor
  · intro g1 g2 s3 a
    unfold GaussianMixtureConditional.add
    rw [DecisionTree.eval_applyBinary, DecisionTree.eval_applyBinary,
      DecisionTree.eval_applyBinary, DecisionTree.eval_applyBinary]
    cases g1.asGaussianFactorGraphTree.eval a with
    | none => simp
    | some x1 =>
      cases g2.asGaussianFactorGraphTree.eval a with
      | none => simp
      | some x2 =>
        cases s3.eval a with
        | none => simp
        | some x3 =>
          show some ((x1 ++ (x2 ++ x3) : List _) : Multiset GaussianConditional)
            = some ((x2 ++ (x1 ++ x3) : List _) : Multiset GaussianConditional)
          refine congrArg _ ?_
          simp only [← Multiset.coe_add]
          exact add_left_comm _ _ _
  · intro g a
    unfold GaussianMixtureConditional.add
    rw [DecisionTree.eval_applyBinary]
    cases g.asGaussianFactorGraphTree.eval a with
    | none => simp
    | some x => simp [DecisionTree.eval]

/-- C3: equals returns true iff the other hybrid factor is also a Gaussian
Mixture Conditional with the same continuous-frontal, continuous-parent and
discrete-parent key sequences whose conditionals tree induces the same
assignment-to-leaf function under per-leaf comparison at the caller's
tolerance (two absent leaves equal, absent against present unequal, two
present leaves delegated to the external comparator); the tree comparison is
a property of the induced function only, hence insensitive to internal
branching shape.  Stated under the data model's consistent-cardinality
requirement on the discrete labels involved. -/
theorem C3_equals_iff :
    (∀ (eqc : GaussianConditional → GaussianConditional → Bool)
        (g g2 : GaussianMixtureConditional),
        DecisionTree.ConsistentCards
          (DecisionTree.labelsL g.conditionals
            ++ DecisionTree.labelsL g2.conditionals) →
        (g.equals eqc (.gmc g2) = true ↔ gmcEqualsSpec eqc g g2)) ∧
    (∀ (eqc : GaussianConditional → GaussianConditional → Bool)
        (g : GaussianMixtureConditional) (ks : List Nat) (dks : List DiscreteKey),
        g.equals eqc (.otherKind ks dks) = false) := by
  constructor
  · intro eqc g g2 hcc
    show (_ && _ && _ && _) = true ↔ _
    simp only [Bool.and_eq_true, decide_eq_true_eq]
    rw [DecisionTree.semEqB_iff _ _ _ hcc]
    unfold gmcEqualsSpec
    tauto
  · intro eqc g ks dks
    rfl

/-- Witness for C3: the example mixture compared against itself. -/
theorem C3_witness :
    DecisionTree.ConsistentCards
      (DecisionTree.labelsL exGMC.conditionals
        ++ DecisionTree.labelsL exGMC.conditionals) ∧
    (exGMC.equals exEq (.gmc exGMC) = true ↔ gmcEqualsSpec exEq exGMC exGMC) :=
  ⟨by decide, C3_equals_iff.1 exEq exGMC exGMC (by decide)⟩

/-- C6: the apply, add and equals operations are total over trees; absent
leaves are first-class and propagate without error — they map through the
unary apply like any leaf, compare through the per-leaf equality (two absent
leaves equal, absent against present unequal), and flow through add as an
empty factor contribution. -/
theorem C6_totality_absent_leaves :
    (∀ (V W : Type) (f : V → W) (t : DecisionTree V) (a : Nat → Nat),
        (DecisionTree.applyUnary f t).eval a = (t.eval a).map f) ∧
    (∀ (V : Type) (op : V → V → V) (t1 t2 : DecisionTree V) (a : Nat → Nat),
        (DecisionTree.applyBinary op t1 t2).eval a
          = DecisionTree.combineOpt op (t1.eval a) (t2.eval a)) ∧
    (∀ eqc : GaussianConditional → GaussianConditional → Bool,
        DecisionTree.optEq eqc none none = true ∧
        ∀ c, DecisionTree.optEq eqc none (some c) = false ∧
             DecisionTree.optEq eqc (some c) none = false) ∧
    (∀ (g : GaussianMixtureConditional) (sum : GaussianMixtureConditional.Sum)
        (a : Nat → Nat) (ys : GaussianFactorGraph),
        g.conditionals.eval a = some none → sum.eval a = some ys →
        (g.add sum).eval a = some ys) := by
  refine ⟨?_, ?_, ?_, ?_⟩
  · intro V W f t a
    exact DecisionTree.eval_applyUnary f t a
  · intro V op t1 t2 a
    exact DecisionTree.eval_applyBinary op t1 t2 a
  · intro eqc
    exact ⟨rfl, fun c => ⟨rfl, rfl⟩⟩
  · intro g sum a ys h1 h2
    unfold GaussianMixtureConditional.add
    rw [DecisionTree.eval_applyBinary,
      GaussianMixtureConditional.asGaussianFactorGraphTree,
      DecisionTree.eval_applyUnary, h1, h2]
    rfl

/-- Witness for C6: an absent leaf of the default mixture flowing through add
against a one-factor sum. -/
theorem C6_witness :
    (default : GaussianMixtureConditional).conditionals.eval (fun _ => 0)
        = some none ∧
    (DecisionTree.leaf [exCondA] : GaussianMixtureConditional.Sum).eval (fun _ => 0)
        = some [exCondA] ∧
    ((default : GaussianMixtureConditional).add (.leaf [exCondA])).eval (fun _ => 0)
        = some [exCondA] :=
  ⟨rfl, rfl,
    C6_totality_absent_leaves.2.2.2 default (.leaf [exCondA]) (fun _ => 0)
      [exCondA] rfl rfl⟩

/-- C7: no operation mutates the receiver — equals, conditionals access, the
factor-graph-tree conversion and add leave the receiver's state unchanged and
return their results as new values; the object's entire independent state is
its four fields (no cached derived state exists in this core), and the
factor-graph-tree view is recomputed from the conditionals field alone. -/
theorem C7_no_mutation :
    (∀ g : GaussianMixtureConditional,
        g = ⟨g.continuousFrontals, g.continuousParents,
             g.discreteParents, g.conditionals⟩) ∧
    (∀ (eqc : GaussianConditional → GaussianConditional → Bool)
        (g : GaussianMixtureConditional) (f : HybridFactor),
        (GaussianMixtureConditional.equalsCall eqc g f).2 = g) ∧
    (∀ g : GaussianMixtureConditional,
        (GaussianMixtureConditional.conditionalsCall g).2 = g ∧
        (GaussianMixtureConditional.conditionalsCall g).1 = g.conditionals) ∧
    (∀ g : GaussianMixtureConditional,
        (GaussianMixtureConditional.asTreeCall g).2 = g) ∧
    (∀ (g : GaussianMixtureConditional) (sum : GaussianMixtureConditional.Sum),
        (GaussianMixtureConditional.addCall g sum).2 = g ∧
        (GaussianMixtureConditional.addCall g sum).1
          = DecisionTree.applyBinary (fun x y => x ++ y)
              g.asGaussianFactorGraphTree sum) ∧
    (∀ g g2 : GaussianMixtureConditional, g.conditionals = g2.conditionals →
        g.asGaussianFactorGraphTree = g2.asGaussianFactorGraphTree) := by
  refine ⟨fun g => rfl, fun eqc g f => rfl, fun g => ⟨rfl, rfl⟩, fun g => rfl,
    fun g sum => ⟨rfl, rfl⟩, ?_⟩
  intro g g2 h
  unfold GaussianMixtureConditional.asGaussianFactorGraphTree
  rw [h]

/-- Witness for C7: derived-data recomputation instantiated at the default
mixture. -/
theorem C7_witness :
    (default : GaussianMixtureConditional).conditionals
        = (default : GaussianMixtureConditional).conditionals ∧
    (default : GaussianMixtureConditional).asGaussianFactorGraphTree
        = (default : GaussianMixtureConditional).asGaussianFactorGraphTree :=
  ⟨rfl, C7_no_mutation.2.2.2.2.2 default default rfl⟩

/-- C8 as stated is false on the header: the claim lists
asGaussianFactorGraphTree() among the exposed callable operations, but the
header declares that member in its private section, so it is not part of the
callable interface. -/
theorem C8_counterexample :
    GMCMember.asGaussianFactorGraphTreeMem ∈ claimedExposed ∧
    GMCMember.asGaussianFactorGraphTreeMem ∉ publicMembers := by
  decide

/-- C8 (amended): the callable interface the header exposes is every class
member except asGaussianFactorGraphTree (which is private): the default
constructor, the tree constructor, FromConditionals, equals, print,
conditionals() and add. -/
theorem C8_amended_public_interface :
    ∀ m : GMCMember,
      m ∈ publicMembers ↔ m ≠ GMCMember.asGaussianFactorGraphTreeMem := by
  decide

/-- C10: the mixture is default-constructible with empty frontal, parent and
discrete key sequences and a conditionals tree holding no conditional at any
assignment; neither the default nor the field-storing construction path
validates shape, so every public operation runs on an object whose
leaves-equal-cardinality-product invariant was never established. -/
theorem C10_default_construction_unvalidated :
    ((default : GaussianMixtureConditional).continuousFrontals = [] ∧
     (default : GaussianMixtureConditional).continuousParents = [] ∧
     (default : GaussianMixtureConditional).discreteParents = [] ∧
     (default : GaussianMixtureConditional).conditionals = .leaf none ∧
     ∀ a, (default : GaussianMixtureConditional).conditionals.eval a = some none) ∧
    (∀ (cf cp : List Nat) (dp : List DiscreteKey)
        (t : DecisionTree (Option GaussianConditional)),
        (GaussianMixtureConditional.mk cf cp dp t).conditionals = t ∧
        (GaussianMixtureConditional.mk cf cp dp t).discreteParents = dp) ∧
    (DecisionTree.numLeaves exBad.conditionals = 1 ∧
     prodCards exBad.discreteParents = 2 ∧
     exBad.equals exEq (.gmc exBad) = true ∧
     exBad.conditionalsCall = (.leaf none, exBad) ∧
     (exBad.add (.leaf [])).eval (fun _ => 0) = some []) := by
  refine ⟨⟨rfl, rfl, rfl, rfl, fun a => rfl⟩,
    fun cf cp dp t => ⟨rfl, rfl⟩, rfl, rfl, rfl, rfl, ?_⟩
  have h : exBad.add (.leaf []) = .leaf [] := by
    unfold GaussianMixtureConditional.add
      GaussianMixtureConditional.asGaussianFactorGraphTree
    show DecisionTree.applyBinary _ (.leaf []) (.leaf []) = _
    rw [DecisionTree.applyBinary_leaf_leaf]
    rfl
  rw [h]
  rfl

/-- C9: both Sphere2 constructors store the input point divided by its norm,
so any input of nonzero norm is stored with unit norm; the division is
unguarded — at the zero vector the constructor still divides, by a divisor
that is exactly zero, and the stored point then fails the unit-norm
guarantee, so the constructors are total only under the nonzero-input
precondition. -/
theorem C9_normalization :
    (∀ q : Point3, q.norm ≠ 0 →
        (Sphere2.fromPoint q).p_.norm = 1 ∧
        (Sphere2.fromCoords q.x q.y q.z).p_.norm = 1) ∧
    Point3.norm ⟨0, 0, 0⟩ = 0 ∧
    Sphere2.fromPoint ⟨0, 0, 0⟩ = ⟨(Point3.mk 0 0 0).divScalar 0⟩ ∧
    (Sphere2.fromPoint ⟨0, 0, 0⟩).p_.norm ≠ 1 := by
  have hz : Point3.norm ⟨0, 0, 0⟩ = 0 := by
    unfold Point3.norm
    simp
  refine ⟨?_, hz, ?_, ?_⟩
  · intro q h
    constructor
    · exact Point3.norm_divScalar_norm q h
    · show ((Point3.mk q.x q.y q.z).divScalar (Point3.mk q.x q.y q.z).norm).norm = 1
      exact Point3.norm_divScalar_norm ⟨q.x, q.y, q.z⟩ h
  · unfold Sphere2.fromPoint
    rw [hz]
  · unfold Sphere2.fromPoint
    rw [hz]
    unfold Point3.divScalar Point3.norm
    simp

/-- Witness for C9: the unit-norm guarantee instantiated at (1, 0, 0). -/
theorem C9_witness :
    Point3.norm ⟨1, 0, 0⟩ ≠ 0 ∧ (Sphere2.fromPoint ⟨1, 0, 0⟩).p_.norm = 1 :=
  ⟨by simp [Point3.norm], (C9_normalization.1 ⟨1, 0, 0⟩ (by simp [Point3.norm])).1⟩

end Gtsam
